import Mathlib

/-!
Verification of the `stdl` utility library's specified core against a shallow
embedding of its code.

Two components are embedded:

* the directory walkers `yield_files_in` / `get_files_in` / `yield_dirs_in` /
  `get_dirs_in` of `src/stdl/fs.py`, modelled over a finite filesystem tree
  (`FSEntry`), with Python's `os.scandir` enumeration order given by the order
  of the children lists, `os.path.abspath` modelled as prefixing the current
  working directory when the path is relative, and `str.endswith` modelled
  including its `TypeError` on a non-`str`/`tuple` argument;

* the duration codec `seconds_to_hms` / `hms_to_seconds`, which the test suite
  imports from `stdl.dt` but which is absent from the sources; it is modelled
  from the spec over exact rationals.

Python exceptions are modelled by `Except String`: a raised exception is
`Except.error` with the exception text.
-/

set_option maxHeartbeats 1000000

open scoped List

/-- Entry of the modelled filesystem tree, as seen by one `os.scandir` call:
a regular file, a directory (with the entries of its own scan), or an entry
that is neither a file nor a directory (broken symlink, socket, FIFO, ...),
for which both `entry.is_file()` and `entry.is_dir()` return `False`. -/
inductive FSEntry where
  | file (name : String)
  | dir (name : String) (children : List FSEntry)
  | other (name : String)

/-- Path of a scandir entry: the scanned directory's path joined with the
entry's name, as `os.scandir` produces it (`entry.path`). -/
def entryPath (d name : String) : String := d ++ "/" ++ name

/-- Model of `os.path.abspath`: a path starting with `/` is already absolute,
a relative path is interpreted against the current working directory `cwd`. -/
def abspath (cwd p : String) : String :=
  if p.data.head? = some '/' then p else cwd ++ "/" ++ p

/-- Apply `os.path.abspath` when the walker's `abs` flag is set. -/
def absIf (cwd : String) (ab : Bool) (p : String) : String :=
  if ab then abspath cwd p else p

/-- ASCII uppercase test (the range `A`-`Z` that Python's `str.lower` and this
model's `lowerChar` rewrite). -/
def isUpperA (c : Char) : Bool := 65 ≤ c.toNat && c.toNat ≤ 90

/-- Model of lowercasing one character: ASCII uppercase letters are shifted to
their lowercase forms, every other character is unchanged. -/
def lowerChar (c : Char) : Char :=
  if 65 ≤ c.toNat ∧ c.toNat ≤ 90 then Char.ofNat (c.toNat + 32) else c

/-- Model of Python's `str.lower`. -/
def lowerStr (s : String) : String := ⟨s.data.map lowerChar⟩

/-- Model of Python's `str.endswith` with a single string argument. -/
def endsWith1 (p e : String) : Bool := decide (e.data <:+ p.data)

/-- The `ext` argument of `yield_files_in` as a Python value: the annotation
says `str | tuple | None`, but any Python object can be passed; a `set` is the
container the spec claims is also supported. -/
inductive ExtArg where
  | none
  | str (e : String)
  | tuple (exts : List String)
  | set (exts : List String)
deriving DecidableEq, Repr

/-- Model of the call `s.endswith(ext)`: `str.endswith` accepts a `str` or a
`tuple` of `str` and raises `TypeError` for any other argument, including a
`set`. -/
def pyEndswith (s : String) : ExtArg → Except String Bool
  | .str e => .ok (endsWith1 s e)
  | .tuple exts => .ok (exts.any fun e => endsWith1 s e)
  | .set _ => .error "TypeError: endswith first arg must be str or a tuple of str, not set"
  | .none => .error "TypeError: endswith first arg must be str or a tuple of str, not NoneType"

mutual

/-- Size of one filesystem entry, used for the termination measure of the
walks. -/
def sizeE : FSEntry → Nat
  | FSEntry.file _ => 1
  | FSEntry.other _ => 1
  | FSEntry.dir _ cs => 1 + sizeL cs

/-- Size of a list of filesystem entries. -/
def sizeL : List FSEntry → Nat
  | [] => 0
  | e :: es => sizeE e + sizeL es

end

/-- Arguments on which `str.endswith` does not raise (the walker only ever
reaches `endswith` with a non-`None` filter, so `none` is also fine). -/
def ExtArg.valid : ExtArg → Bool
  | .set _ => false
  | _ => true

/-- Pure description of the walker's filter decision on a raw entry path:
lowercase the path (never the filter) and test the filter's suffixes. -/
def matchesExt (rawPath : String) : ExtArg → Bool
  | .none => true
  | .str e => endsWith1 (lowerStr rawPath) e
  | .tuple exts => exts.any fun e => endsWith1 (lowerStr rawPath) e
  | .set _ => false

/-- Embedding of the `not recursive` branch of `yield_files_in`
(src/stdl/fs.py lines 749-761): scan the root's entries once; skip everything
that is not a regular file; convert to an absolute path first when `abs` is
set; yield unconditionally when `ext is None`, otherwise yield when the
(possibly absolute) path lowercased ends with `ext`. -/
def scanFilesNonRec (cwd dirPath : String) (ext : ExtArg) (ab : Bool) :
    List FSEntry → Except String (List String)
  | [] => .ok []
  | FSEntry.file n :: rest =>
    let path := entryPath dirPath n
    let path := if ab then abspath cwd path else path
    match ext with
    | .none =>
      match scanFilesNonRec cwd dirPath ext ab rest with
      | .error e => .error e
      | .ok tl => .ok (path :: tl)
    | x =>
      match pyEndswith (lowerStr path) x with
      | .error e => .error e
      | .ok b =>
        match scanFilesNonRec cwd dirPath x ab rest with
        | .error e => .error e
        | .ok tl => .ok (if b then path :: tl else tl)
  | _ :: rest => scanFilesNonRec cwd dirPath ext ab rest

/-- Embedding of one scan of a dequeued directory in the recursive branches of
`yield_files_in` (src/stdl/fs.py lines 766-783): directory entries are handled
by the queue (`subdirNodes`), file entries are filtered on their raw
`entry.path` lowercased and yielded as `os.path.abspath(entry.path)` when
`abs` is set, and all other entries are skipped. -/
def scanFilesQueued (cwd dirPath : String) (ext : ExtArg) (ab : Bool) :
    List FSEntry → Except String (List String)
  | [] => .ok []
  | FSEntry.file n :: rest =>
    let path := entryPath dirPath n
    match ext with
    | .none =>
      match scanFilesQueued cwd dirPath ext ab rest with
      | .error e => .error e
      | .ok tl => .ok ((if ab then abspath cwd path else path) :: tl)
    | x =>
      match pyEndswith (lowerStr path) x with
      | .error e => .error e
      | .ok b =>
        match scanFilesQueued cwd dirPath x ab rest with
        | .error e => .error e
        | .ok tl => .ok (if b then (if ab then abspath cwd path else path) :: tl else tl)
  | _ :: rest => scanFilesQueued cwd dirPath ext ab rest

/-- A node of the walkers' work queue: a directory's path together with the
entries its scan will produce. -/
abbrev DirNode := String × List FSEntry

/-- The directory children of one scan, in scan order, as the queue nodes that
`queue.put(entry.path)` makes of them. -/
def subdirNodes (dirPath : String) (es : List FSEntry) : List DirNode :=
  es.filterMap fun e =>
    match e with
    | FSEntry.dir n cs => some (entryPath dirPath n, cs)
    | _ => none

/-- The directory children of one scan of `yield_dirs_in` as the paths it
yields for them, in scan order. -/
def dirYields (cwd dirPath : String) (ab : Bool) (es : List FSEntry) : List String :=
  es.filterMap fun e =>
    match e with
    | FSEntry.dir n _ => some (absIf cwd ab (entryPath dirPath n))
    | _ => none

/-- Size of one queue node: always positive, so dequeuing alone already
shrinks the measure. -/
def nodeSize (nd : DirNode) : Nat := 1 + sizeL nd.2

/-- Total size of a queue, the termination measure of the breadth-first
loops. -/
def queueSize (q : List DirNode) : Nat := (q.map nodeSize).sum

theorem queueSize_append (a b : List DirNode) :
    queueSize (a ++ b) = queueSize a + queueSize b := by
  simp [queueSize]

theorem queueSize_subdirNodes_le (p : String) (es : List FSEntry) :
    queueSize (subdirNodes p es) ≤ sizeL es := by
  induction es with
  | nil => simp [queueSize, subdirNodes]
  | cons e rest ih =>
    cases e with
    | file n => simp only [subdirNodes, List.filterMap_cons, sizeL, sizeE] at *; omega
    | other n => simp only [subdirNodes, List.filterMap_cons, sizeL, sizeE] at *; omega
    | dir n cs =>
      simp only [subdirNodes, List.filterMap_cons, sizeL, sizeE, queueSize, nodeSize,
        List.map_cons, List.sum_cons] at *
      omega

theorem queueSize_step (p : String) (es : List FSEntry) (rest : List DirNode) :
    queueSize (rest ++ subdirNodes p es) < queueSize ((p, es) :: rest) := by
  have h := queueSize_subdirNodes_le p es
  rw [queueSize_append]
  simp only [queueSize, nodeSize, List.map_cons, List.sum_cons] at h ⊢
  omega

theorem queueSize_step_ite (p : String) (es : List FSEntry) (rest : List DirNode) (r : Bool) :
    queueSize (rest ++ if r then subdirNodes p es else []) < queueSize ((p, es) :: rest) := by
  cases r with
  | true => simpa using queueSize_step p es rest
  | false =>
    simp only [Bool.false_eq_true, if_false, List.append_nil, queueSize, nodeSize,
      List.map_cons, List.sum_cons]
    omega

/-- Embedding of the breadth-first loop of the recursive branches of
`yield_files_in`: dequeue a directory, scan it (yielding its matching files
and enqueueing its subdirectories at the back), until the queue is empty.
An exception raised during a scan propagates and aborts the walk. -/
def bfsFiles (cwd : String) (ext : ExtArg) (ab : Bool) : List DirNode → Except String (List String)
  | [] => .ok []
  | (p, es) :: rest =>
    match scanFilesQueued cwd p ext ab es with
    | .error e => .error e
    | .ok here =>
      match bfsFiles cwd ext ab (rest ++ subdirNodes p es) with
      | .error e => .error e
      | .ok tl => .ok (here ++ tl)
termination_by q => queueSize q
decreasing_by exact queueSize_step p es rest

/-- Embedding of the loop of `yield_dirs_in` (src/stdl/fs.py lines 829-837):
dequeue a directory, yield every directory child, and enqueue each directory
child only when `recursive` is set. -/
def bfsDirs (cwd : String) (recursive ab : Bool) : List DirNode → List String
  | [] => []
  | (p, es) :: rest =>
    dirYields cwd p ab es ++
      bfsDirs cwd recursive ab (rest ++ if recursive then subdirNodes p es else [])
termination_by q => queueSize q
decreasing_by exact queueSize_step_ite p es rest recursive

/-- Trace of the breadth-first loop: the sequence of nodes dequeued and
scanned, shared by the recursive file walker and the recursive directory
walker (both enqueue exactly the directory children of each scan). -/
def bfsTrace : List DirNode → List DirNode
  | [] => []
  | (p, es) :: rest => (p, es) :: bfsTrace (rest ++ subdirNodes p es)
termination_by q => queueSize q
decreasing_by exact queueSize_step p es rest

/-- Embedding of `yield_files_in` (src/stdl/fs.py lines 726-783), the lazy
file walker drained to a list: the filesystem is given as the root path and
the entries of the root's scan. -/
def yield_files_in (cwd root : String) (entries : List FSEntry) (ext : ExtArg)
    (recursive ab : Bool) : Except String (List String) :=
  if !recursive then scanFilesNonRec cwd root ext ab entries
  else bfsFiles cwd ext ab [(root, entries)]

/-- Embedding of `get_files_in` (src/stdl/fs.py lines 786-810):
`list(yield_files_in(directory, ext, recursive=recursive, abs=abs))`; since
the lazy walker is already modelled as the list it yields, draining it is the
identity. -/
def get_files_in (cwd root : String) (entries : List FSEntry) (ext : ExtArg)
    (recursive ab : Bool) : Except String (List String) :=
  yield_files_in cwd root entries ext recursive ab

/-- Embedding of `yield_dirs_in` (src/stdl/fs.py lines 813-837), the lazy
directory walker drained to a list. -/
def yield_dirs_in (cwd root : String) (entries : List FSEntry)
    (recursive ab : Bool) : List String :=
  bfsDirs cwd recursive ab [(root, entries)]

/-- Embedding of `get_dirs_in` (src/stdl/fs.py lines 840-853):
`list(yield_dirs_in(directory, recursive=recursive, abs=abs))`. -/
def get_dirs_in (cwd root : String) (entries : List FSEntry)
    (recursive ab : Bool) : List String :=
  yield_dirs_in cwd root entries recursive ab

/-- Files yielded by one scan of the recursive file walker, described purely:
the filter tests the raw entry path, the yielded path is the (possibly
absolute) one. -/
def fileYields (cwd dirPath : String) (ext : ExtArg) (ab : Bool) : List FSEntry → List String
  | [] => []
  | FSEntry.file n :: rest =>
    if matchesExt (entryPath dirPath n) ext then
      absIf cwd ab (entryPath dirPath n) :: fileYields cwd dirPath ext ab rest
    else fileYields cwd dirPath ext ab rest
  | _ :: rest => fileYields cwd dirPath ext ab rest

/-- Files yielded by the non-recursive branch, described purely: there the
filter tests the path after the optional abspath conversion. -/
def nonRecYields (cwd dirPath : String) (ext : ExtArg) (ab : Bool) : List FSEntry → List String
  | [] => []
  | FSEntry.file n :: rest =>
    if matchesExt (absIf cwd ab (entryPath dirPath n)) ext then
      absIf cwd ab (entryPath dirPath n) :: nonRecYields cwd dirPath ext ab rest
    else nonRecYields cwd dirPath ext ab rest
  | _ :: rest => nonRecYields cwd dirPath ext ab rest

/-- Pure (exception-free) form of the recursive file walk, used to state what
`bfsFiles` returns when the filter argument cannot raise. -/
def bfsFilesPure (cwd : String) (ext : ExtArg) (ab : Bool) : List DirNode → List String
  | [] => []
  | (p, es) :: rest =>
    fileYields cwd p ext ab es ++ bfsFilesPure cwd ext ab (rest ++ subdirNodes p es)
termination_by q => queueSize q
decreasing_by exact queueSize_step p es rest

theorem mem_subdirNodes_nodeSize {nd : DirNode} {p : String} {es : List FSEntry}
    (h : nd ∈ subdirNodes p es) : nodeSize nd < 1 + sizeL es := by
  induction es with
  | nil => simp [subdirNodes] at h
  | cons e rest ih =>
    cases e with
    | file n =>
      simp only [subdirNodes, List.filterMap_cons] at h ih
      have := ih h
      simp only [sizeL, sizeE]
      omega
    | other n =>
      simp only [subdirNodes, List.filterMap_cons] at h ih
      have := ih h
      simp only [sizeL, sizeE]
      omega
    | dir n cs =>
      simp only [subdirNodes, List.filterMap_cons, List.mem_cons] at h ih
      rcases h with h | h
      · subst h
        simp only [nodeSize, sizeL, sizeE]
        omega
      · have := ih h
        simp only [sizeL, sizeE]
        omega

/-- All file paths the recursive walk should yield for one directory node and
everything below it: the node's own matching files first, then, subtree by
subtree, those of its subdirectories. -/
def treeFiles (cwd : String) (ext : ExtArg) (ab : Bool) (nd : DirNode) : List String :=
  fileYields cwd nd.1 ext ab nd.2 ++
    ((subdirNodes nd.1 nd.2).attach.map fun c => treeFiles cwd ext ab c.1).flatten
termination_by nodeSize nd
decreasing_by exact mem_subdirNodes_nodeSize c.2

/-- All directory paths the recursive directory walk should yield for one
node: its directory children, then, subtree by subtree, those below them. -/
def treeDirs (cwd : String) (ab : Bool) (nd : DirNode) : List String :=
  dirYields cwd nd.1 ab nd.2 ++
    ((subdirNodes nd.1 nd.2).attach.map fun c => treeDirs cwd ab c.1).flatten
termination_by nodeSize nd
decreasing_by exact mem_subdirNodes_nodeSize c.2

/-- All directory nodes of a subtree, the node itself included, each listed
exactly once (pre-order). -/
def treeNodes (nd : DirNode) : List DirNode :=
  nd :: ((subdirNodes nd.1 nd.2).attach.map fun c => treeNodes c.1).flatten
termination_by nodeSize nd
decreasing_by exact mem_subdirNodes_nodeSize c.2

theorem attach_map_flatten {α β : Type} (l : List α) (f : α → List β) :
    (l.attach.map fun c => f c.1).flatten = l.flatMap f := by
  rw [List.flatMap]
  congr 1
  rw [show (fun c : {x // x ∈ l} => f c.1) = f ∘ Subtype.val from rfl, ← List.map_map,
    List.attach_map_subtype_val]

theorem treeFiles_eq (cwd : String) (ext : ExtArg) (ab : Bool) (p : String)
    (es : List FSEntry) :
    treeFiles cwd ext ab (p, es) =
      fileYields cwd p ext ab es ++ (subdirNodes p es).flatMap (treeFiles cwd ext ab) := by
  rw [treeFiles]
  simp only [attach_map_flatten]

theorem treeDirs_eq (cwd : String) (ab : Bool) (p : String) (es : List FSEntry) :
    treeDirs cwd ab (p, es) =
      dirYields cwd p ab es ++ (subdirNodes p es).flatMap (treeDirs cwd ab) := by
  rw [treeDirs]
  simp only [attach_map_flatten]

theorem treeNodes_eq (p : String) (es : List FSEntry) :
    treeNodes (p, es) = (p, es) :: (subdirNodes p es).flatMap treeNodes := by
  rw [treeNodes]
  simp only [attach_map_flatten]

theorem bfsTrace_perm (q : List DirNode) :
    bfsTrace q ~ q.flatMap treeNodes := by
  induction q using bfsTrace.induct with
  | case1 => simp [bfsTrace]
  | case2 p es rest ih =>
    rw [bfsTrace, List.flatMap_cons, treeNodes_eq]
    refine (ih.cons (p, es)).trans ?_
    rw [List.flatMap_append, List.cons_append]
    refine List.Perm.cons _ ?_
    exact List.perm_append_comm

theorem bfsFilesPure_perm (cwd : String) (ext : ExtArg) (ab : Bool) (q : List DirNode) :
    bfsFilesPure cwd ext ab q ~ q.flatMap (treeFiles cwd ext ab) := by
  induction q using bfsFilesPure.induct cwd ext ab with
  | case1 => simp [bfsFilesPure]
  | case2 p es rest ih =>
    rw [bfsFilesPure, List.flatMap_cons, treeFiles_eq]
    refine (ih.append_left _).trans ?_
    rw [List.flatMap_append, List.append_assoc]
    exact List.perm_append_comm.append_left _

theorem bfsDirs_perm (cwd : String) (ab : Bool) (q : List DirNode) :
    bfsDirs cwd true ab q ~ q.flatMap (treeDirs cwd ab) := by
  induction q using bfsDirs.induct cwd true ab with
  | case1 => simp [bfsDirs]
  | case2 p es rest ih =>
    rw [bfsDirs, List.flatMap_cons, treeDirs_eq]
    simp only [if_true] at ih ⊢
    refine (ih.append_left _).trans ?_
    rw [List.flatMap_append, List.append_assoc]
    exact List.perm_append_comm.append_left _

theorem scanFilesQueued_ok (cwd p : String) (ext : ExtArg) (ab : Bool)
    (es : List FSEntry) (hv : ext.valid = true) :
    scanFilesQueued cwd p ext ab es = .ok (fileYields cwd p ext ab es) := by
  induction es with
  | nil => simp [scanFilesQueued, fileYields]
  | cons e rest ih =>
    cases e with
    | file n =>
      cases ext with
      | none => simp [scanFilesQueued, fileYields, matchesExt, absIf, ih]
      | str s => simp [scanFilesQueued, pyEndswith, fileYields, matchesExt, absIf, ih]
      | tuple exts => simp [scanFilesQueued, pyEndswith, fileYields, matchesExt, absIf, ih]
      | set exts => simp [ExtArg.valid] at hv
    | dir n cs => simpa [scanFilesQueued, fileYields] using ih
    | other n => simpa [scanFilesQueued, fileYields] using ih

theorem scanFilesNonRec_ok (cwd p : String) (ext : ExtArg) (ab : Bool)
    (es : List FSEntry) (hv : ext.valid = true) :
    scanFilesNonRec cwd p ext ab es = .ok (nonRecYields cwd p ext ab es) := by
  induction es with
  | nil => simp [scanFilesNonRec, nonRecYields]
  | cons e rest ih =>
    cases e with
    | file n =>
      cases ext with
      | none => simp [scanFilesNonRec, nonRecYields, matchesExt, absIf, ih]
      | str s => simp [scanFilesNonRec, pyEndswith, nonRecYields, matchesExt, absIf, ih]
      | tuple exts => simp [scanFilesNonRec, pyEndswith, nonRecYields, matchesExt, absIf, ih]
      | set exts => simp [ExtArg.valid] at hv
    | dir n cs => simpa [scanFilesNonRec, nonRecYields] using ih
    | other n => simpa [scanFilesNonRec, nonRecYields] using ih

theorem bfsFiles_eq_pure (cwd : String) (ext : ExtArg) (ab : Bool)
    (hv : ext.valid = true) (q : List DirNode) :
    bfsFiles cwd ext ab q = .ok (bfsFilesPure cwd ext ab q) := by
  induction q using bfsFilesPure.induct cwd ext ab with
  | case1 => simp [bfsFiles, bfsFilesPure]
  | case2 p es rest ih =>
    simp only [bfsFiles, bfsFilesPure, scanFilesQueued_ok cwd p ext ab es hv, ih]

theorem entryPath_length (d n : String) :
    (entryPath d n).length = d.length + 1 + n.length := by
  have h1 : ("/" : String).length = 1 := rfl
  simp [entryPath, String.length_append, h1]

theorem absIf_length (cwd : String) (ab : Bool) (p : String) :
    p.length ≤ (absIf cwd ab p).length := by
  cases ab with
  | false => simp [absIf]
  | true =>
    simp only [absIf, abspath, if_true]
    split
    · exact Nat.le_refl _
    · simp only [String.length_append]
      omega

theorem mem_subdirNodes {nd : DirNode} {p : String} {es : List FSEntry}
    (h : nd ∈ subdirNodes p es) : ∃ n cs, nd = (entryPath p n, cs) := by
  induction es with
  | nil => simp [subdirNodes] at h
  | cons e rest ih =>
    cases e with
    | file n =>
      simp only [subdirNodes, List.filterMap_cons] at h ih
      exact ih h
    | other n =>
      simp only [subdirNodes, List.filterMap_cons] at h ih
      exact ih h
    | dir n cs =>
      simp only [subdirNodes, List.filterMap_cons] at h ih
      rcases List.mem_cons.mp h with h | h
      · exact ⟨n, cs, h⟩
      · exact ih h

theorem mem_dirYields {x : String} {cwd p : String} {ab : Bool} {es : List FSEntry}
    (h : x ∈ dirYields cwd p ab es) : ∃ n, x = absIf cwd ab (entryPath p n) := by
  induction es with
  | nil => simp [dirYields] at h
  | cons e rest ih =>
    cases e with
    | file n =>
      simp only [dirYields, List.filterMap_cons] at h ih
      exact ih h
    | other n =>
      simp only [dirYields, List.filterMap_cons] at h ih
      exact ih h
    | dir n cs =>
      simp only [dirYields, List.filterMap_cons] at h ih
      rcases List.mem_cons.mp h with h | h
      · exact ⟨n, h⟩
      · exact ih h

theorem mem_fileYields {x : String} {cwd p : String} {ext : ExtArg} {ab : Bool}
    {es : List FSEntry} (h : x ∈ fileYields cwd p ext ab es) :
    ∃ n, x = absIf cwd ab (entryPath p n) := by
  induction es with
  | nil => simp [fileYields] at h
  | cons e rest ih =>
    cases e with
    | file n =>
      simp only [fileYields] at h
      split at h
      · rcases List.mem_cons.mp h with h | h
        · exact ⟨n, h⟩
        · exact ih h
      · exact ih h
    | dir n cs =>
      simp only [fileYields] at h
      exact ih h
    | other n =>
      simp only [fileYields] at h
      exact ih h

theorem mem_nonRecYields {x : String} {cwd p : String} {ext : ExtArg} {ab : Bool}
    {es : List FSEntry} (h : x ∈ nonRecYields cwd p ext ab es) :
    ∃ n, x = absIf cwd ab (entryPath p n) := by
  induction es with
  | nil => simp [nonRecYields] at h
  | cons e rest ih =>
    cases e with
    | file n =>
      simp only [nonRecYields] at h
      split at h
      · rcases List.mem_cons.mp h with h | h
        · exact ⟨n, h⟩
        · exact ih h
      · exact ih h
    | dir n cs =>
      simp only [nonRecYields] at h
      exact ih h
    | other n =>
      simp only [nonRecYields] at h
      exact ih h

theorem absIf_entryPath_length_gt {R : Nat} {p : String} (hp : R ≤ p.length)
    (cwd n : String) (ab : Bool) : R < (absIf cwd ab (entryPath p n)).length := by
  have h1 := absIf_length cwd ab (entryPath p n)
  rw [entryPath_length] at h1
  omega

theorem bfsFilesPure_yield_length (cwd : String) (ext : ExtArg) (ab : Bool) (R : Nat) :
    ∀ q : List DirNode, (∀ nd ∈ q, R ≤ nd.1.length) →
      ∀ x ∈ bfsFilesPure cwd ext ab q, R < x.length := by
  intro q
  induction q using bfsFilesPure.induct cwd ext ab with
  | case1 => intro _ x hx; simp [bfsFilesPure] at hx
  | case2 p es rest ih =>
    intro hq x hx
    have hp : R ≤ p.length := hq (p, es) (List.mem_cons_self _ _)
    rw [bfsFilesPure] at hx
    rcases List.mem_append.mp hx with h | h
    · rcases mem_fileYields h with ⟨n, rfl⟩
      exact absIf_entryPath_length_gt hp cwd n ab
    · refine ih ?_ x h
      intro nd hnd
      rcases List.mem_append.mp hnd with h1 | h1
      · exact hq nd (List.mem_cons_of_mem _ h1)
      · rcases mem_subdirNodes h1 with ⟨n, cs, rfl⟩
        rw [entryPath_length]
        omega

theorem bfsDirs_yield_length (cwd : String) (r ab : Bool) (R : Nat) :
    ∀ q : List DirNode, (∀ nd ∈ q, R ≤ nd.1.length) →
      ∀ x ∈ bfsDirs cwd r ab q, R < x.length := by
  intro q
  induction q using bfsDirs.induct cwd r ab with
  | case1 => intro _ x hx; simp [bfsDirs] at hx
  | case2 p es rest ih =>
    intro hq x hx
    have hp : R ≤ p.length := hq (p, es) (List.mem_cons_self _ _)
    rw [bfsDirs] at hx
    rcases List.mem_append.mp hx with h | h
    · rcases mem_dirYields h with ⟨n, rfl⟩
      exact absIf_entryPath_length_gt hp cwd n ab
    · refine ih ?_ x h
      intro nd hnd
      rcases List.mem_append.mp hnd with h1 | h1
      · exact hq nd (List.mem_cons_of_mem _ h1)
      · rcases List.mem_ite_nil_right.mp h1 with ⟨_, h2⟩
        rcases mem_subdirNodes h2 with ⟨n, cs, rfl⟩
        rw [entryPath_length]
        omega

/-- Model of `entry.is_dir()`. -/
def FSEntry.isDir : FSEntry → Bool
  | FSEntry.dir _ _ => true
  | _ => false

theorem dirYields_eq_nil {cwd p : String} {ab : Bool} {es : List FSEntry}
    (h : ∀ e ∈ es, e.isDir = false) : dirYields cwd p ab es = [] := by
  induction es with
  | nil => simp [dirYields]
  | cons e rest ih =>
    cases e with
    | file n => simpa [dirYields, List.filterMap_cons] using ih fun e he => h e (List.mem_cons_of_mem _ he)
    | other n => simpa [dirYields, List.filterMap_cons] using ih fun e he => h e (List.mem_cons_of_mem _ he)
    | dir n cs => simpa [FSEntry.isDir] using h (FSEntry.dir n cs) (List.mem_cons_self _ _)

theorem subdirNodes_eq_nil {p : String} {es : List FSEntry}
    (h : ∀ e ∈ es, e.isDir = false) : subdirNodes p es = [] := by
  induction es with
  | nil => simp [subdirNodes]
  | cons e rest ih =>
    cases e with
    | file n => simpa [subdirNodes, List.filterMap_cons] using ih fun e he => h e (List.mem_cons_of_mem _ he)
    | other n => simpa [subdirNodes, List.filterMap_cons] using ih fun e he => h e (List.mem_cons_of_mem _ he)
    | dir n cs => simpa [FSEntry.isDir] using h (FSEntry.dir n cs) (List.mem_cons_self _ _)

/-- Removal of every entry that is neither a regular file nor a directory,
everywhere in the tree. -/
def pruneOthers : List FSEntry → List FSEntry
  | [] => []
  | FSEntry.other _ :: rest => pruneOthers rest
  | FSEntry.file n :: rest => FSEntry.file n :: pruneOthers rest
  | FSEntry.dir n cs :: rest => FSEntry.dir n (pruneOthers cs) :: pruneOthers rest
termination_by es => sizeL es
decreasing_by all_goals simp only [sizeL, sizeE]; omega

/-- Prune a queue node's entry list. -/
def pruneNode (nd : DirNode) : DirNode := (nd.1, pruneOthers nd.2)

theorem scanFilesQueued_prune (cwd p : String) (ext : ExtArg) (ab : Bool)
    (es : List FSEntry) :
    scanFilesQueued cwd p ext ab (pruneOthers es) = scanFilesQueued cwd p ext ab es := by
  induction es using pruneOthers.induct with
  | case1 => rw [pruneOthers]
  | case2 n rest ih => rw [pruneOthers]; simp only [scanFilesQueued]; exact ih
  | case3 n rest ih =>
    rw [pruneOthers]
    cases ext <;> simp [scanFilesQueued, pyEndswith, ih]
  | case4 n cs rest ih1 ih2 =>
    rw [pruneOthers]
    simp only [scanFilesQueued]
    exact ih2

theorem scanFilesNonRec_prune (cwd p : String) (ext : ExtArg) (ab : Bool)
    (es : List FSEntry) :
    scanFilesNonRec cwd p ext ab (pruneOthers es) = scanFilesNonRec cwd p ext ab es := by
  induction es using pruneOthers.induct with
  | case1 => rw [pruneOthers]
  | case2 n rest ih => rw [pruneOthers]; simp only [scanFilesNonRec]; exact ih
  | case3 n rest ih =>
    rw [pruneOthers]
    cases ext <;> simp [scanFilesNonRec, pyEndswith, ih]
  | case4 n cs rest ih1 ih2 =>
    rw [pruneOthers]
    simp only [scanFilesNonRec]
    exact ih2

theorem subdirNodes_prune (p : String) (es : List FSEntry) :
    subdirNodes p (pruneOthers es) = (subdirNodes p es).map pruneNode := by
  induction es using pruneOthers.induct with
  | case1 => rw [pruneOthers]; rfl
  | case2 n rest ih => rw [pruneOthers]; simpa [subdirNodes, List.filterMap_cons] using ih
  | case3 n rest ih => rw [pruneOthers]; simpa [subdirNodes, List.filterMap_cons] using ih
  | case4 n cs rest ih1 ih2 =>
    rw [pruneOthers]
    simp only [subdirNodes, List.filterMap_cons, List.map_cons] at ih2 ⊢
    rw [ih2]
    rfl

theorem bfsFiles_prune (cwd : String) (ext : ExtArg) (ab : Bool) (q : List DirNode) :
    bfsFiles cwd ext ab (q.map pruneNode) = bfsFiles cwd ext ab q := by
  induction q using bfsFiles.induct cwd ext ab with
  | case1 => rfl
  | case2 p es rest e heq =>
    rw [List.map_cons]
    show bfsFiles cwd ext ab ((p, pruneOthers es) :: _) = _
    rw [bfsFiles, bfsFiles, scanFilesQueued_prune, heq]
  | case3 p es rest tl hscan e hrec ih =>
    rw [List.map_cons]
    show bfsFiles cwd ext ab ((p, pruneOthers es) :: _) = _
    rw [bfsFiles, bfsFiles, scanFilesQueued_prune, hscan, subdirNodes_prune,
      ← List.map_append, ih]
  | case4 p es rest tl hscan tl2 hrec ih =>
    rw [List.map_cons]
    show bfsFiles cwd ext ab ((p, pruneOthers es) :: _) = _
    rw [bfsFiles, bfsFiles, scanFilesQueued_prune, hscan, subdirNodes_prune,
      ← List.map_append, ih]

theorem lowerChar_not_upper (c : Char) : isUpperA (lowerChar c) = false := by
  unfold lowerChar
  split
  · rename_i h
    generalize hk : c.toNat = k at h ⊢
    obtain ⟨h1, h2⟩ := h
    interval_cases k <;> decide
  · rename_i h
    simp only [isUpperA, Bool.and_eq_false_iff, decide_eq_false_iff_not]
    omega

theorem not_mem_lowerStr_of_upper {c : Char} (hc : isUpperA c = true) (s : String) :
    c ∉ (lowerStr s).data := by
  intro hmem
  simp only [lowerStr] at hmem
  rcases List.mem_map.mp hmem with ⟨c0, _, rfl⟩
  rw [lowerChar_not_upper] at hc
  simp at hc

theorem endsWith1_lower_false {e : String} (he : ∃ c ∈ e.data, isUpperA c = true)
    (p : String) : endsWith1 (lowerStr p) e = false := by
  rcases he with ⟨c, hc, hup⟩
  unfold endsWith1
  rw [decide_eq_false_iff_not]
  intro hsuf
  exact not_mem_lowerStr_of_upper hup p (hsuf.subset hc)

theorem matchesExt_upper_false {exts : List String}
    (h : ∀ e ∈ exts, ∃ c ∈ e.data, isUpperA c = true) (p : String) :
    matchesExt p (ExtArg.tuple exts) = false := by
  simp only [matchesExt, List.any_eq_false]
  intro e he
  exact (endsWith1_lower_false (h e he) p) ▸ (Bool.false_ne_true)

theorem fileYields_never {cwd p : String} {ext : ExtArg} {ab : Bool}
    (h : ∀ s, matchesExt s ext = false) (es : List FSEntry) :
    fileYields cwd p ext ab es = [] := by
  induction es with
  | nil => rfl
  | cons e rest ih =>
    cases e with
    | file n => simp only [fileYields, h, if_false, Bool.false_eq_true]; exact ih
    | dir n cs => simpa only [fileYields] using ih
    | other n => simpa only [fileYields] using ih

theorem nonRecYields_never {cwd p : String} {ext : ExtArg} {ab : Bool}
    (h : ∀ s, matchesExt s ext = false) (es : List FSEntry) :
    nonRecYields cwd p ext ab es = [] := by
  induction es with
  | nil => rfl
  | cons e rest ih =>
    cases e with
    | file n => simp only [nonRecYields, h, if_false, Bool.false_eq_true]; exact ih
    | dir n cs => simpa only [nonRecYields] using ih
    | other n => simpa only [nonRecYields] using ih

theorem bfsFilesPure_never {cwd : String} {ext : ExtArg} {ab : Bool}
    (h : ∀ s, matchesExt s ext = false) (q : List DirNode) :
    bfsFilesPure cwd ext ab q = [] := by
  induction q using bfsFilesPure.induct cwd ext ab with
  | case1 => rw [bfsFilesPure]
  | case2 p es rest ih => rw [bfsFilesPure, fileYields_never h, ih]; rfl

theorem matchesExt_str_tuple (p e : String) :
    matchesExt p (ExtArg.str e) = matchesExt p (ExtArg.tuple [e]) := by
  simp [matchesExt]

theorem fileYields_str_tuple (cwd p : String) (e : String) (ab : Bool) (es : List FSEntry) :
    fileYields cwd p (ExtArg.str e) ab es = fileYields cwd p (ExtArg.tuple [e]) ab es := by
  induction es with
  | nil => rfl
  | cons x rest ih =>
    cases x with
    | file n => simp only [fileYields, matchesExt_str_tuple, ih]
    | dir n cs => simpa only [fileYields] using ih
    | other n => simpa only [fileYields] using ih

theorem nonRecYields_str_tuple (cwd p : String) (e : String) (ab : Bool) (es : List FSEntry) :
    nonRecYields cwd p (ExtArg.str e) ab es = nonRecYields cwd p (ExtArg.tuple [e]) ab es := by
  induction es with
  | nil => rfl
  | cons x rest ih =>
    cases x with
    | file n => simp only [nonRecYields, matchesExt_str_tuple, ih]
    | dir n cs => simpa only [nonRecYields] using ih
    | other n => simpa only [nonRecYields] using ih

theorem bfsFilesPure_str_tuple (cwd : String) (e : String) (ab : Bool) (q : List DirNode) :
    bfsFilesPure cwd (ExtArg.str e) ab q = bfsFilesPure cwd (ExtArg.tuple [e]) ab q := by
  induction q using bfsFilesPure.induct cwd (ExtArg.str e) ab with
  | case1 => rw [bfsFilesPure, bfsFilesPure]
  | case2 p es rest ih => rw [bfsFilesPure, bfsFilesPure, fileYields_str_tuple, ih]

/-- Drop the grandchildren of every immediate directory child: used to state
that the non-recursive walk depends only on the root's immediate children. -/
def topOnly : FSEntry → FSEntry
  | FSEntry.dir n _ => FSEntry.dir n []
  | e => e

theorem scanFilesNonRec_topOnly (cwd p : String) (ext : ExtArg) (ab : Bool)
    (es : List FSEntry) :
    scanFilesNonRec cwd p ext ab (es.map topOnly) = scanFilesNonRec cwd p ext ab es := by
  induction es with
  | nil => rfl
  | cons e rest ih =>
    cases e with
    | file n =>
      simp only [List.map_cons, topOnly]
      cases ext <;> simp only [scanFilesNonRec, pyEndswith, ih]
    | dir n cs => simp only [List.map_cons, topOnly, scanFilesNonRec]; exact ih
    | other n => simp only [List.map_cons, topOnly, scanFilesNonRec]; exact ih

theorem bfsFilesPure_eq_trace_flatMap (cwd : String) (ext : ExtArg) (ab : Bool)
    (q : List DirNode) :
    bfsFilesPure cwd ext ab q =
      (bfsTrace q).flatMap fun nd => fileYields cwd nd.1 ext ab nd.2 := by
  induction q using bfsFilesPure.induct cwd ext ab with
  | case1 => simp [bfsFilesPure, bfsTrace]
  | case2 p es rest ih => rw [bfsFilesPure, bfsTrace, List.flatMap_cons, ih]

theorem bfsDirs_eq_trace_flatMap (cwd : String) (ab : Bool) (q : List DirNode) :
    bfsDirs cwd true ab q = (bfsTrace q).flatMap fun nd => dirYields cwd nd.1 ab nd.2 := by
  induction q using bfsDirs.induct cwd true ab with
  | case1 => simp [bfsDirs, bfsTrace]
  | case2 p es rest ih =>
    rw [bfsDirs, bfsTrace, List.flatMap_cons]
    simp only [dite_eq_ite, if_true] at ih ⊢
    rw [ih]

/-- C2: a recursive walk dequeues and scans each directory of the tree exactly
once: the dequeue trace is a permutation of the tree's directory-node list
`treeNodes`, which lists every node exactly once. In FILES mode the walk
yields exactly the matching files, each exactly once and nothing else (its
result is `bfsFilesPure`, a permutation of the per-file-entry list
`treeFiles`, so no directory is ever yielded); the recursive directory walker
yields each subdirectory exactly once (a permutation of `treeDirs`), not
re-yielding it when it is itself dequeued. -/
theorem walk_scans_each_dir_once_yields_each_file_once
    (cwd root : String) (es : List FSEntry) (ext : ExtArg) (ab : Bool)
    (hv : ext.valid = true) :
    bfsTrace [(root, es)] ~ treeNodes (root, es) ∧
    yield_files_in cwd root es ext true ab =
      Except.ok (bfsFilesPure cwd ext ab [(root, es)]) ∧
    bfsFilesPure cwd ext ab [(root, es)] ~ treeFiles cwd ext ab (root, es) ∧
    yield_dirs_in cwd root es true ab ~ treeDirs cwd ab (root, es) ∧
    bfsFilesPure cwd ext ab [(root, es)] =
      (bfsTrace [(root, es)]).flatMap (fun nd => fileYields cwd nd.1 ext ab nd.2) ∧
    yield_dirs_in cwd root es true ab =
      (bfsTrace [(root, es)]).flatMap (fun nd => dirYields cwd nd.1 ab nd.2) := by
  refine ⟨?_, ?_, ?_, ?_, ?_, ?_⟩
  · simpa using bfsTrace_perm [(root, es)]
  · rw [yield_files_in]
    simpa using bfsFiles_eq_pure cwd ext ab hv [(root, es)]
  · simpa using bfsFilesPure_perm cwd ext ab [(root, es)]
  · rw [yield_dirs_in]
    simpa using bfsDirs_perm cwd ab [(root, es)]
  · exact bfsFilesPure_eq_trace_flatMap cwd ext ab [(root, es)]
  · rw [yield_dirs_in]
    exact bfsDirs_eq_trace_flatMap cwd ab [(root, es)]

/-- C5: with `recursive=False` in FILES mode only the immediate children of
the root are scanned (the result does not change when all grandchildren are
removed), and the walk yields exactly the immediate file children that pass
the filter, each an immediate child path of the root. -/
theorem non_recursive_walk_yields_only_immediate_files
    (cwd root : String) (es : List FSEntry) (ext : ExtArg) (ab : Bool)
    (hv : ext.valid = true) :
    yield_files_in cwd root es ext false ab =
      Except.ok (nonRecYields cwd root ext ab es) ∧
    yield_files_in cwd root (es.map topOnly) ext false ab =
      yield_files_in cwd root es ext false ab ∧
    (∀ x ∈ nonRecYields cwd root ext ab es, ∃ n, x = absIf cwd ab (entryPath root n)) := by
  refine ⟨?_, ?_, ?_⟩
  · rw [yield_files_in]
    simpa using scanFilesNonRec_ok cwd root ext ab es hv
  · rw [yield_files_in, yield_files_in]
    simpa using scanFilesNonRec_topOnly cwd root ext ab es
  · intro x hx
    exact mem_nonRecYields hx

/-- C6 counterexample: the claim says a `set` extension filter behaves like a
tuple, but passing a set reaches `str.endswith` unvalidated and raises
`TypeError` on the first file entry, so the walk over `root/{a.txt}` with the
set filter `{".txt"}` errors instead of yielding `root/a.txt`. -/
theorem set_extension_filter_raises_counterexample :
    yield_files_in "/c" "root" [FSEntry.file "a.txt"] (ExtArg.set [".txt"]) true false =
      Except.error "TypeError: endswith first arg must be str or a tuple of str, not set" ∧
    yield_files_in "/c" "root" [FSEntry.file "a.txt"] (ExtArg.set [".txt"]) true false ≠
      Except.ok ["root/a.txt"] := by
  have h : yield_files_in "/c" "root" [FSEntry.file "a.txt"] (ExtArg.set [".txt"]) true false =
      Except.error "TypeError: endswith first arg must be str or a tuple of str, not set" := by
    rw [yield_files_in]
    simp only [Bool.not_true, Bool.false_eq_true, if_false]
    rw [bfsFiles]
    simp [scanFilesQueued, pyEndswith]
  exact ⟨h, by rw [h]; simp⟩

/-- C6 amended: the extension filter may be a single string or a tuple of
suffix strings; a tuple filters exactly by lowercased-path suffix match (both
in recursive and non-recursive mode), and a single string behaves exactly as
the one-element tuple; a `set` is not supported (it raises `TypeError`, see
the counterexample). -/
theorem extension_filter_tuple_and_str
    (cwd root : String) (es : List FSEntry) (e : String) (exts : List String) (ab : Bool) :
    yield_files_in cwd root es (ExtArg.tuple exts) true ab =
      Except.ok (bfsFilesPure cwd (ExtArg.tuple exts) ab [(root, es)]) ∧
    bfsFilesPure cwd (ExtArg.tuple exts) ab [(root, es)] ~
      treeFiles cwd (ExtArg.tuple exts) ab (root, es) ∧
    yield_files_in cwd root es (ExtArg.tuple exts) false ab =
      Except.ok (nonRecYields cwd root (ExtArg.tuple exts) ab es) ∧
    (∀ r : Bool, yield_files_in cwd root es (ExtArg.str e) r ab =
      yield_files_in cwd root es (ExtArg.tuple [e]) r ab) := by
  refine ⟨?_, ?_, ?_, ?_⟩
  · rw [yield_files_in]
    simpa using bfsFiles_eq_pure cwd (ExtArg.tuple exts) ab rfl [(root, es)]
  · simpa using bfsFilesPure_perm cwd (ExtArg.tuple exts) ab [(root, es)]
  · rw [yield_files_in]
    simpa using scanFilesNonRec_ok cwd root (ExtArg.tuple exts) ab es rfl
  · intro r
    cases r with
    | false =>
      rw [yield_files_in, yield_files_in]
      simp only [Bool.not_false, if_true]
      rw [scanFilesNonRec_ok cwd root (ExtArg.str e) ab es rfl,
        scanFilesNonRec_ok cwd root (ExtArg.tuple [e]) ab es rfl,
        nonRecYields_str_tuple]
    | true =>
      rw [yield_files_in, yield_files_in]
      simp only [Bool.not_true, Bool.false_eq_true, if_false]
      rw [bfsFiles_eq_pure cwd (ExtArg.str e) ab rfl [(root, es)],
        bfsFiles_eq_pure cwd (ExtArg.tuple [e]) ab rfl [(root, es)],
        bfsFilesPure_str_tuple]

/-- C7: the eager variants return exactly the list obtained by draining the
corresponding lazy walker with the same arguments: `get_files_in` is
`list(yield_files_in(...))` and `get_dirs_in` is `list(yield_dirs_in(...))`,
and draining the walker, already modelled as the list of its yields, is the
identity. -/
theorem eager_variants_drain_lazy_walkers
    (cwd root : String) (es : List FSEntry) (ext : ExtArg) (r ab : Bool) :
    get_files_in cwd root es ext r ab = yield_files_in cwd root es ext r ab ∧
    get_dirs_in cwd root es r ab = yield_dirs_in cwd root es r ab :=
  ⟨rfl, rfl⟩

/-- C8: neither walker ever yields the root path itself: every yielded path
is the path of an entry discovered under some scanned directory, hence
strictly longer than the root's path; and the directory walker on a root
without directory children yields nothing (the seeded root is scanned but
never emitted). -/
theorem walkers_never_yield_root
    (cwd root : String) (es : List FSEntry) (ext : ExtArg) (r ab : Bool)
    (hv : ext.valid = true) :
    (∀ l, yield_files_in cwd root es ext r ab = Except.ok l → root ∉ l) ∧
    root ∉ yield_dirs_in cwd root es r ab ∧
    ((∀ e ∈ es, e.isDir = false) → yield_dirs_in cwd root es r ab = []) := by
  refine ⟨?_, ?_, ?_⟩
  · intro l hl hroot
    cases r with
    | true =>
      rw [yield_files_in] at hl
      simp only [Bool.not_true, Bool.false_eq_true, if_false] at hl
      rw [bfsFiles_eq_pure cwd ext ab hv [(root, es)]] at hl
      cases hl
      have := bfsFilesPure_yield_length cwd ext ab root.length [(root, es)]
        (by intro nd hnd; simp only [List.mem_singleton] at hnd; rw [hnd]) root hroot
      omega
    | false =>
      rw [yield_files_in] at hl
      simp only [Bool.not_false, if_true] at hl
      rw [scanFilesNonRec_ok cwd root ext ab es hv] at hl
      cases hl
      rcases mem_nonRecYields hroot with ⟨n, hn⟩
      have := absIf_entryPath_length_gt (Nat.le_refl root.length) cwd n ab
      rw [← hn] at this
      omega
  · intro hroot
    rw [yield_dirs_in] at hroot
    have := bfsDirs_yield_length cwd r ab root.length [(root, es)]
      (by intro nd hnd; simp only [List.mem_singleton] at hnd; rw [hnd]) root hroot
    omega
  · intro h
    rw [yield_dirs_in, bfsDirs, dirYields_eq_nil h, subdirNodes_eq_nil h]
    simp [bfsDirs]

/-- C9: an entry that is neither a regular file nor a directory is neither
yielded nor enqueued by the file walker in either mode (removing all such
entries from the tree leaves the result unchanged), and it causes no error
(the walk still returns a result). -/
theorem walker_skips_non_file_non_dir_entries
    (cwd root : String) (es : List FSEntry) (ext : ExtArg) (r ab : Bool)
    (hv : ext.valid = true) :
    yield_files_in cwd root (pruneOthers es) ext r ab =
      yield_files_in cwd root es ext r ab ∧
    ∃ l, yield_files_in cwd root es ext r ab = Except.ok l := by
  constructor
  · cases r with
    | false =>
      rw [yield_files_in, yield_files_in]
      simpa using scanFilesNonRec_prune cwd root ext ab es
    | true =>
      rw [yield_files_in, yield_files_in]
      simp only [Bool.not_true, Bool.false_eq_true, if_false]
      have := bfsFiles_prune cwd ext ab [(root, es)]
      simpa [pruneNode] using this
  · cases r with
    | false =>
      rw [yield_files_in]
      simp only [Bool.not_false, if_true]
      exact ⟨_, scanFilesNonRec_ok cwd root ext ab es hv⟩
    | true =>
      rw [yield_files_in]
      simp only [Bool.not_true, Bool.false_eq_true, if_false]
      exact ⟨_, bfsFiles_eq_pure cwd ext ab hv [(root, es)]⟩

/-- C10: extension matching lowercases only the candidate path, never the
filter: a filter suffix containing an ASCII uppercase character is never a
suffix of a lowercased path, so a tuple filter all of whose suffixes contain
an uppercase character yields the empty sequence over any tree, in either
mode - even when a file name ends with that exact mixed-case suffix. -/
theorem uppercase_filter_suffix_never_matches
    (cwd root : String) (es : List FSEntry) (exts : List String) (r ab : Bool)
    (h : ∀ e ∈ exts, ∃ c ∈ e.data, isUpperA c = true) :
    (∀ e ∈ exts, ∀ p : String, endsWith1 (lowerStr p) e = false) ∧
    yield_files_in cwd root es (ExtArg.tuple exts) r ab = Except.ok [] := by
  have hnever : ∀ s, matchesExt s (ExtArg.tuple exts) = false :=
    fun s => matchesExt_upper_false h s
  constructor
  · intro e he p
    exact endsWith1_lower_false (h e he) p
  · cases r with
    | false =>
      rw [yield_files_in]
      simp only [Bool.not_false, if_true]
      rw [scanFilesNonRec_ok cwd root (ExtArg.tuple exts) ab es rfl,
        nonRecYields_never hnever]
    | true =>
      rw [yield_files_in]
      simp only [Bool.not_true, Bool.false_eq_true, if_false]
      rw [bfsFiles_eq_pure cwd (ExtArg.tuple exts) ab rfl [(root, es)],
        bfsFilesPure_never hnever]

/-- Witness for C2 at the spec's example tree `root/{a.txt, sub/b.txt}`: both
files are yielded exactly once, and the single subdirectory exactly once. -/
theorem walk_scans_each_dir_once_yields_each_file_once_witness :
    (ExtArg.tuple [".txt"]).valid = true ∧
    yield_files_in "/c" "root" [FSEntry.file "a.txt", FSEntry.dir "sub" [FSEntry.file "b.txt"]]
        (ExtArg.tuple [".txt"]) true false = Except.ok ["root/a.txt", "root/sub/b.txt"] ∧
    yield_dirs_in "/c" "root" [FSEntry.file "a.txt", FSEntry.dir "sub" [FSEntry.file "b.txt"]]
        true false = ["root/sub"] := by
  refine ⟨rfl, ?_, ?_⟩
  · rw [(walk_scans_each_dir_once_yields_each_file_once "/c" "root"
      [FSEntry.file "a.txt", FSEntry.dir "sub" [FSEntry.file "b.txt"]]
      (ExtArg.tuple [".txt"]) false rfl).2.1]
    simp only [bfsFilesPure, fileYields, subdirNodes, List.filterMap_cons, List.filterMap_nil,
      List.nil_append, List.append_nil, List.cons_append]
    rfl
  · rw [yield_dirs_in]
    simp only [bfsDirs, dirYields, subdirNodes, List.filterMap_cons, List.filterMap_nil,
      List.nil_append, List.append_nil, List.cons_append, if_true]
    rfl

/-- Witness for C5 at the spec's example tree: the non-recursive walk yields
only the immediate file `root/a.txt`, not `root/sub/b.txt`. -/
theorem non_recursive_walk_yields_only_immediate_files_witness :
    ExtArg.none.valid = true ∧
    yield_files_in "/c" "root" [FSEntry.file "a.txt", FSEntry.dir "sub" [FSEntry.file "b.txt"]]
        ExtArg.none false false = Except.ok ["root/a.txt"] := by
  refine ⟨rfl, ?_⟩
  rw [(non_recursive_walk_yields_only_immediate_files "/c" "root"
    [FSEntry.file "a.txt", FSEntry.dir "sub" [FSEntry.file "b.txt"]] ExtArg.none false rfl).1]
  rfl

/-- Witness for C8: the directory walker never yields the root itself, and on
a root without directory children it yields nothing. -/
theorem walkers_never_yield_root_witness :
    ExtArg.none.valid = true ∧
    "root" ∉ yield_dirs_in "/c" "root" [FSEntry.dir "sub" []] true false ∧
    yield_dirs_in "/c" "root" [FSEntry.file "a.txt"] true false = [] := by
  refine ⟨rfl, ?_, ?_⟩
  · exact (walkers_never_yield_root "/c" "root" [FSEntry.dir "sub" []]
      ExtArg.none true false rfl).2.1
  · exact (walkers_never_yield_root "/c" "root" [FSEntry.file "a.txt"]
      ExtArg.none true false rfl).2.2 (by decide)

/-- Witness for C9: a socket-like entry is skipped silently; pruning it does
not change the walk, which still succeeds and yields the sibling file. -/
theorem walker_skips_non_file_non_dir_entries_witness :
    ExtArg.none.valid = true ∧
    yield_files_in "/c" "root" (pruneOthers [FSEntry.other "s.sock", FSEntry.file "a.txt"])
        ExtArg.none true false =
      yield_files_in "/c" "root" [FSEntry.other "s.sock", FSEntry.file "a.txt"]
        ExtArg.none true false ∧
    yield_files_in "/c" "root" [FSEntry.other "s.sock", FSEntry.file "a.txt"]
        ExtArg.none true false = Except.ok ["root/a.txt"] := by
  refine ⟨rfl, ?_, ?_⟩
  · exact (walker_skips_non_file_non_dir_entries "/c" "root"
      [FSEntry.other "s.sock", FSEntry.file "a.txt"] ExtArg.none true false rfl).1
  · rw [yield_files_in]
    simp only [Bool.not_true, Bool.false_eq_true, if_false]
    rw [bfsFiles_eq_pure "/c" ExtArg.none false rfl]
    simp only [bfsFilesPure, fileYields, subdirNodes, List.filterMap_cons, List.filterMap_nil,
      List.nil_append, List.append_nil, List.cons_append]
    rfl

/-- Witness for C10: the mixed-case filter `(".TXT",)` yields nothing even
over a tree whose only file name ends with exactly `.TXT`. -/
theorem uppercase_filter_suffix_never_matches_witness :
    (∀ e ∈ [".TXT"], ∃ c ∈ e.data, isUpperA c = true) ∧
    yield_files_in "/c" "root" [FSEntry.file "a.TXT"] (ExtArg.tuple [".TXT"]) true false =
      Except.ok [] := by
  constructor
  · decide
  · exact (uppercase_filter_suffix_never_matches "/c" "root" [FSEntry.file "a.TXT"]
      [".TXT"] true false (by decide)).2

/-- ASCII digit test, the model of the codec's digit-only validation. -/
def isDigitA (c : Char) : Bool := 48 ≤ c.toNat && c.toNat ≤ 57

/-- Numeric value of an ASCII digit character. -/
def digitVal (c : Char) : Nat := c.toNat - 48

/-- Value of a digit run read most-significant first. -/
def digitsVal (cs : List Char) : Nat := cs.foldl (fun a c => 10 * a + digitVal c) 0

/-- Parse a nonempty all-digit run, the model of `int(part)` on an unsigned
field; anything else is rejected. -/
def parseNatDigits (cs : List Char) : Option Nat :=
  if cs.isEmpty then none
  else if cs.all isDigitA then some (digitsVal cs) else none

/-- Character of one decimal digit. -/
def digitChar (d : Nat) : Char := Char.ofNat (48 + d)

/-- Decimal digits of a number, most significant first (empty for zero),
computed with explicit fuel so that it evaluates by kernel reduction; any
fuel of at least `n` gives the digits of `n`. -/
def natCharsAux : Nat → Nat → List Char
  | 0, _ => []
  | fuel + 1, n =>
    if n = 0 then [] else natCharsAux fuel (n / 10) ++ [digitChar (n % 10)]

/-- Decimal digits of a number, the model of `str(n)` for natural `n`. -/
def natChars (n : Nat) : List Char := if n = 0 then ['0'] else natCharsAux n n

/-- Left-pad with zeros to a minimum width, the model of `zfill` / `%02d`. -/
def padZeros (w : Nat) (cs : List Char) : List Char :=
  List.replicate (w - cs.length) '0' ++ cs

/-- Split a character list on a separator; always returns at least one piece,
the model of `str.split(sep)`. -/
def splitOnC (sep : Char) : List Char → List (List Char)
  | [] => [[]]
  | c :: rest =>
    if c = sep then [] :: splitOnC sep rest
    else
      match splitOnC sep rest with
      | [] => [[c]]
      | p :: ps => (c :: p) :: ps

/-- Strip one leading minus sign, reporting whether it was present. -/
def stripNeg (cs : List Char) : Bool × List Char :=
  if cs.head? = some '-' then (true, cs.tail) else (false, cs)

/-- Modelled from the spec: `seconds_to_hms` is imported from `stdl.dt` by the
test suite but absent from the sources under src/. Following the spec: take
the absolute value, decompose it into whole hours (unbounded), minutes and
seconds in 0-59, each zero-padded to 2 digits (hours to at least 2), append a
3-digit millisecond field when `ms` is set, and prefix `-` exactly when the
input is negative with nonzero magnitude (in the rational model, negative).
Floats are modelled as exact rationals. -/
def seconds_to_hms (x : ℚ) (ms : Bool) : String :=
  let a : ℚ := |x|
  let totalSec : ℕ := ⌊a⌋₊
  let h : ℕ := totalSec / 3600
  let m : ℕ := totalSec / 60 % 60
  let s : ℕ := totalSec % 60
  let q : ℕ := ⌊a * 1000⌋₊ % 1000
  String.mk ((if x < 0 then ['-'] else []) ++
    padZeros 2 (natChars h) ++ [':'] ++ padZeros 2 (natChars m) ++ [':'] ++
    padZeros 2 (natChars s) ++ (if ms then ['.'] ++ padZeros 3 (natChars q) else []))

/-- Modelled from the spec: parse the seconds field of `hms_to_seconds`,
optionally split on `.` into a whole part and a fractional part when `ms` is
set; the fractional digits are interpreted as a fraction (zero-padding on the
right to 3 places gives the same value for at most 3 digits). Returns the
whole second count and the fractional value. -/
def parseSecondsPart (cs : List Char) (ms : Bool) : Option (Nat × ℚ) :=
  if ms then
    match splitOnC '.' cs with
    | [w] => (parseNatDigits w).map fun n => (n, 0)
    | [w, f] =>
      match parseNatDigits w, parseNatDigits f with
      | some n, some fv => some (n, (fv : ℚ) / 10 ^ f.length)
      | _, _ => none
    | _ => none
  else (parseNatDigits cs).map fun n => (n, 0)

/-- Modelled from the spec: `hms_to_seconds` on the character list of the
input. An optional leading `-` negates the result; the rest is split on `:`
into 1 to 3 numeric parts read right-to-left as seconds, minutes, hours; a
single bare number is a raw second count; minute and second fields of a
multi-part time must be below 60; anything not matching the grammar raises
`InvalidFormat` (modelled as `Except.error`). -/
def hmsToSecondsChars (cs : List Char) (ms : Bool) : Except String ℚ :=
  let sn := stripNeg cs
  let sign : ℚ := if sn.1 then -1 else 1
  match splitOnC ':' sn.2 with
  | [p1] =>
    match parseSecondsPart p1 ms with
    | some (s, fv) => .ok (sign * ((s : ℚ) + fv))
    | none => .error "InvalidFormat"
  | [p1, p2] =>
    match parseNatDigits p1, parseSecondsPart p2 ms with
    | some m, some (s, fv) =>
      if m < 60 ∧ s < 60 then .ok (sign * ((m : ℚ) * 60 + s + fv))
      else .error "InvalidFormat"
    | _, _ => .error "InvalidFormat"
  | [p1, p2, p3] =>
    match parseNatDigits p1, parseNatDigits p2, parseSecondsPart p3 ms with
    | some h, some m, some (s, fv) =>
      if m < 60 ∧ s < 60 then .ok (sign * ((h : ℚ) * 3600 + (m : ℚ) * 60 + s + fv))
      else .error "InvalidFormat"
    | _, _, _ => .error "InvalidFormat"
  | _ => .error "InvalidFormat"

/-- Modelled from the spec: `hms_to_seconds` on a string. -/
def hms_to_seconds (t : String) (ms : Bool) : Except String ℚ :=
  hmsToSecondsChars t.data ms

/-- Validity of a duration string, written independently after the spec's
error clauses: at most 3 colon-separated parts; every hour/minute field and
the whole-seconds field nonempty and digit-only; the fractional field (only
allowed with `ms`, after a single `.`) nonempty and digit-only; parsed minute
and second fields of a multi-part time below 60. -/
def validSecondsField (cs : List Char) (ms : Bool) : Bool :=
  if ms then
    match splitOnC '.' cs with
    | [w] => !w.isEmpty && w.all isDigitA
    | [w, f] => (!w.isEmpty && w.all isDigitA) && (!f.isEmpty && f.all isDigitA)
    | _ => false
  else !cs.isEmpty && cs.all isDigitA

/-- Whole-seconds value of a seconds field that passed `validSecondsField`. -/
def secondsFieldVal (cs : List Char) (ms : Bool) : Nat :=
  if ms then digitsVal ((splitOnC '.' cs).headD []) else digitsVal cs

/-- Grammar validity of a duration string, written after the spec's clauses. -/
def validHMS (cs : List Char) (ms : Bool) : Bool :=
  match splitOnC ':' (stripNeg cs).2 with
  | [p1] => validSecondsField p1 ms
  | [p1, p2] =>
    (!p1.isEmpty && p1.all isDigitA) && decide (digitsVal p1 < 60) &&
      validSecondsField p2 ms && decide (secondsFieldVal p2 ms < 60)
  | [p1, p2, p3] =>
    (!p1.isEmpty && p1.all isDigitA) &&
      (!p2.isEmpty && p2.all isDigitA) && decide (digitsVal p2 < 60) &&
      validSecondsField p3 ms && decide (secondsFieldVal p3 ms < 60)
  | _ => false

/-- True when a Python call returned normally rather than raising. -/
def isOkE {ε α : Type} : Except ε α → Bool
  | Except.ok _ => true
  | Except.error _ => false

theorem digitChar_isDigit {d : Nat} (h : d < 10) : isDigitA (digitChar d) = true := by
  interval_cases d <;> decide

theorem digitVal_digitChar {d : Nat} (h : d < 10) : digitVal (digitChar d) = d := by
  interval_cases d <;> decide

theorem digitsVal_foldl (b : List Char) : ∀ init : Nat,
    b.foldl (fun a c => 10 * a + digitVal c) init = init * 10 ^ b.length + digitsVal b := by
  induction b with
  | nil => intro init; simp [digitsVal]
  | cons c b ih =>
    intro init
    have hv : digitsVal (c :: b) = digitVal c * 10 ^ b.length + digitsVal b := by
      rw [digitsVal, List.foldl_cons, ih (10 * 0 + digitVal c)]
      ring_nf
    rw [List.foldl_cons, ih (10 * init + digitVal c), hv, List.length_cons]
    ring

theorem digitsVal_append (a b : List Char) :
    digitsVal (a ++ b) = digitsVal a * 10 ^ b.length + digitsVal b := by
  rw [digitsVal, List.foldl_append, ← digitsVal, digitsVal_foldl]

theorem digitsVal_replicate_zero (k : Nat) : digitsVal (List.replicate k '0') = 0 := by
  induction k with
  | zero => rfl
  | succ k ih =>
    rw [List.replicate_succ, digitsVal, List.foldl_cons]
    show List.foldl _ (10 * 0 + digitVal '0') _ = 0
    have h0 : 10 * 0 + digitVal '0' = 0 := by decide
    rw [h0]
    exact ih

theorem digitsVal_padZeros (w : Nat) (cs : List Char) :
    digitsVal (padZeros w cs) = digitsVal cs := by
  rw [padZeros, digitsVal_append, digitsVal_replicate_zero]
  ring

theorem padZeros_all_digits {cs : List Char} (h : ∀ c ∈ cs, isDigitA c = true) (w : Nat) :
    ∀ c ∈ padZeros w cs, isDigitA c = true := by
  intro c hc
  rcases List.mem_append.mp hc with h1 | h1
  · rw [List.eq_of_mem_replicate h1]
    decide
  · exact h c h1

theorem padZeros_length (w : Nat) (cs : List Char) :
    (padZeros w cs).length = max w cs.length := by
  simp only [padZeros, List.length_append, List.length_replicate]
  omega

theorem padZeros_ne_nil (w : Nat) (cs : List Char) (h : 0 < w) : padZeros w cs ≠ [] := by
  have := padZeros_length w cs
  intro hc
  rw [hc] at this
  simp at this
  omega

theorem natCharsAux_all_digits : ∀ fuel n : Nat, ∀ c ∈ natCharsAux fuel n, isDigitA c = true := by
  intro fuel
  induction fuel with
  | zero => intro n c hc; simp [natCharsAux] at hc
  | succ fuel ih =>
    intro n c hc
    rw [natCharsAux] at hc
    split at hc
    · simp at hc
    · rcases List.mem_append.mp hc with h | h
      · exact ih _ c h
      · simp only [List.mem_singleton] at h
        subst h
        exact digitChar_isDigit (Nat.mod_lt _ (by omega))

theorem digitsVal_natCharsAux : ∀ fuel n : Nat, n ≤ fuel →
    digitsVal (natCharsAux fuel n) = n := by
  intro fuel
  induction fuel with
  | zero =>
    intro n h
    interval_cases n
    rfl
  | succ fuel ih =>
    intro n h
    rw [natCharsAux]
    split
    · rename_i h0
      rw [h0]
      rfl
    · rename_i h0
      rw [digitsVal_append, ih (n / 10) (by omega)]
      have h1 : digitsVal [digitChar (n % 10)] = n % 10 := by
        show 10 * 0 + digitVal (digitChar (n % 10)) = n % 10
        rw [digitVal_digitChar (Nat.mod_lt _ (by omega))]
        omega
      rw [h1, List.length_singleton]
      omega

theorem natCharsAux_length : ∀ fuel n k : Nat, n < 10 ^ k →
    (natCharsAux fuel n).length ≤ k := by
  intro fuel
  induction fuel with
  | zero => intro n k _; simp [natCharsAux]
  | succ fuel ih =>
    intro n k hk
    rw [natCharsAux]
    split
    · simp
    · rename_i h0
      have hk1 : 1 ≤ k := by
        by_contra hc
        push_neg at hc
        interval_cases k
        omega
      have h10 : 10 ^ k = 10 ^ (k - 1) * 10 := by
        conv_lhs => rw [show k = (k - 1) + 1 by omega]
        rw [pow_succ]
      have hdiv : n / 10 < 10 ^ (k - 1) := by omega
      have hlen := ih (n / 10) (k - 1) hdiv
      rw [List.length_append, List.length_singleton]
      omega

theorem digitsVal_natChars (n : Nat) : digitsVal (natChars n) = n := by
  rw [natChars]
  split
  · rename_i h
    rw [h]
    rfl
  · exact digitsVal_natCharsAux n n (Nat.le_refl n)

theorem natChars_all_digits (n : Nat) : ∀ c ∈ natChars n, isDigitA c = true := by
  rw [natChars]
  split
  · intro c hc
    simp only [List.mem_singleton] at hc
    subst hc
    decide
  · exact natCharsAux_all_digits n n

theorem natChars_length_le {n k : Nat} (hn : n < 10 ^ k) (hk : 1 ≤ k) :
    (natChars n).length ≤ k := by
  rw [natChars]
  split
  · simpa using hk
  · exact natCharsAux_length n n k hn

theorem not_mem_of_all_digits {cs : List Char} (h : ∀ c ∈ cs, isDigitA c = true)
    {x : Char} (hx : isDigitA x = false) : x ∉ cs := by
  intro hm
  rw [h x hm] at hx
  cases hx

theorem splitOnC_not_mem {sep : Char} : ∀ {l : List Char}, sep ∉ l → splitOnC sep l = [l] := by
  intro l
  induction l with
  | nil => intro _; rfl
  | cons c rest ih =>
    intro h
    simp only [List.mem_cons, not_or] at h
    rw [splitOnC, if_neg (fun hc => h.1 hc.symm), ih h.2]

theorem splitOnC_append {sep : Char} : ∀ {l1 : List Char}, sep ∉ l1 → ∀ l2 : List Char,
    splitOnC sep (l1 ++ sep :: l2) = l1 :: splitOnC sep l2 := by
  intro l1
  induction l1 with
  | nil =>
    intro _ l2
    simp only [List.nil_append]
    rw [splitOnC, if_pos rfl]
  | cons c rest ih =>
    intro h l2
    simp only [List.mem_cons, not_or] at h
    rw [List.cons_append, splitOnC, if_neg (fun hc => h.1 hc.symm), ih h.2 l2]

theorem stripNeg_cons_neg (cs : List Char) : stripNeg ('-' :: cs) = (true, cs) := by
  simp [stripNeg]

theorem stripNeg_no_neg {cs : List Char} (h : cs.head? ≠ some '-') :
    stripNeg cs = (false, cs) := by
  rw [stripNeg, if_neg h]

theorem head?_ne_neg_of_digits {cs : List Char} (hne : cs ≠ [])
    (h : ∀ c ∈ cs, isDigitA c = true) (t : List Char) :
    (cs ++ t).head? ≠ some '-' := by
  rcases List.exists_cons_of_ne_nil hne with ⟨c, l, rfl⟩
  simp only [List.cons_append, List.head?_cons]
  intro hc
  rw [Option.some_inj] at hc
  subst hc
  have := h '-' (List.mem_cons_self _ _)
  simp [isDigitA] at this

theorem parseNatDigits_of_digits {cs : List Char} (hne : cs ≠ [])
    (h : ∀ c ∈ cs, isDigitA c = true) : parseNatDigits cs = some (digitsVal cs) := by
  rw [parseNatDigits, if_neg (by simpa using hne), if_pos (List.all_eq_true.mpr h)]

theorem hmsToSecondsChars_format (neg : Bool) (H M S F : List Char)
    (hH : ∀ c ∈ H, isDigitA c = true) (hHne : H ≠ [])
    (hM : ∀ c ∈ M, isDigitA c = true) (hMne : M ≠ [])
    (hS : ∀ c ∈ S, isDigitA c = true) (hSne : S ≠ [])
    (hF : ∀ c ∈ F, isDigitA c = true) (hFne : F ≠ [])
    (hm : digitsVal M < 60) (hs : digitsVal S < 60) :
    hmsToSecondsChars
        ((if neg then ['-'] else []) ++ (H ++ ':' :: (M ++ ':' :: (S ++ '.' :: F)))) true =
      Except.ok ((if neg then (-1 : ℚ) else 1) *
        ((digitsVal H : ℚ) * 3600 + (digitsVal M : ℚ) * 60 + (digitsVal S : ℚ) +
          (digitsVal F : ℚ) / 10 ^ F.length)) := by
  have hcolon : (':' : Char) ∉ H := not_mem_of_all_digits hH (by decide)
  have hcolonM : (':' : Char) ∉ M := not_mem_of_all_digits hM (by decide)
  have hcolonSF : (':' : Char) ∉ S ++ '.' :: F := by
    intro hmem
    rcases List.mem_append.mp hmem with h1 | h1
    · exact not_mem_of_all_digits hS (by decide) h1
    · rcases List.mem_cons.mp h1 with h2 | h2
      · cases h2
      · exact not_mem_of_all_digits hF (by decide) h2
  have hdotS : ('.' : Char) ∉ S := not_mem_of_all_digits hS (by decide)
  have hdotF : ('.' : Char) ∉ F := not_mem_of_all_digits hF (by decide)
  have hstrip : stripNeg
      ((if neg then ['-'] else []) ++ (H ++ ':' :: (M ++ ':' :: (S ++ '.' :: F)))) =
      (neg, H ++ ':' :: (M ++ ':' :: (S ++ '.' :: F))) := by
    cases neg with
    | true =>
      simp only [if_true, List.singleton_append]
      exact stripNeg_cons_neg _
    | false =>
      simp only [Bool.false_eq_true, if_false, List.nil_append]
      exact stripNeg_no_neg (head?_ne_neg_of_digits hHne hH _)
  have hsplit : splitOnC ':'
      (H ++ ':' :: (M ++ ':' :: (S ++ '.' :: F))) = [H, M, S ++ '.' :: F] := by
    rw [splitOnC_append hcolon, splitOnC_append hcolonM, splitOnC_not_mem hcolonSF]
  have hsec : parseSecondsPart (S ++ '.' :: F) true =
      some (digitsVal S, (digitsVal F : ℚ) / 10 ^ F.length) := by
    rw [parseSecondsPart, if_pos rfl, splitOnC_append hdotS, splitOnC_not_mem hdotF]
    simp only [parseNatDigits_of_digits hSne hS, parseNatDigits_of_digits hFne hF]
  rw [hmsToSecondsChars]
  simp only [hstrip, hsplit, hsec, parseNatDigits_of_digits hHne hH,
    parseNatDigits_of_digits hMne hM, if_pos (And.intro hm hs)]

theorem natFloor_natCast_div_natCast (n d : ℕ) : ⌊(n : ℚ) / (d : ℚ)⌋₊ = n / d := by
  have h := Nat.floor_div_nat ((n : ℚ)) d
  rw [Nat.floor_natCast] at h
  exact h

theorem data_mk (l : List Char) : (String.mk l).data = l := rfl

theorem seconds_to_hms_thousandths (k : ℤ) (ms : Bool) :
    seconds_to_hms ((k : ℚ) / 1000) ms =
      String.mk ((if k < 0 then ['-'] else []) ++
        padZeros 2 (natChars (k.natAbs / 3600000)) ++ [':'] ++
        padZeros 2 (natChars (k.natAbs / 60000 % 60)) ++ [':'] ++
        padZeros 2 (natChars (k.natAbs / 1000 % 60)) ++
        (if ms then ['.'] ++ padZeros 3 (natChars (k.natAbs % 1000)) else [])) := by
  have habs : |(k : ℚ) / 1000| = (k.natAbs : ℚ) / 1000 := by
    rw [abs_div, Int.cast_natAbs]
    norm_num
  have h1 : ⌊|(k : ℚ) / 1000|⌋₊ = k.natAbs / 1000 := by
    rw [habs]
    exact_mod_cast natFloor_natCast_div_natCast k.natAbs 1000
  have h2 : ⌊|(k : ℚ) / 1000| * 1000⌋₊ = k.natAbs := by
    rw [habs, div_mul_cancel₀]
    · exact Nat.floor_natCast _
    · norm_num
  have hneg : ((k : ℚ) / 1000 < 0) ↔ (k < 0) := by
    constructor
    · intro h
      rcases div_neg_iff.mp h with ⟨_, h2⟩ | ⟨h1, _⟩
      · norm_num at h2
      · exact_mod_cast h1
    · intro h
      apply div_neg_iff.mpr
      right
      exact ⟨by exact_mod_cast h, by norm_num⟩
  simp only [seconds_to_hms, h1, h2, hneg, Nat.div_div_eq_div_mul]

theorem hmsToSecondsChars_format_neg (H M S F : List Char)
    (hH : ∀ c ∈ H, isDigitA c = true) (hHne : H ≠ [])
    (hM : ∀ c ∈ M, isDigitA c = true) (hMne : M ≠ [])
    (hS : ∀ c ∈ S, isDigitA c = true) (hSne : S ≠ [])
    (hF : ∀ c ∈ F, isDigitA c = true) (hFne : F ≠ [])
    (hm : digitsVal M < 60) (hs : digitsVal S < 60) :
    hmsToSecondsChars ('-' :: (H ++ ':' :: (M ++ ':' :: (S ++ '.' :: F)))) true =
      Except.ok (-((digitsVal H : ℚ) * 3600 + (digitsVal M : ℚ) * 60 + (digitsVal S : ℚ) +
          (digitsVal F : ℚ) / 10 ^ F.length)) := by
  have h := hmsToSecondsChars_format true H M S F hH hHne hM hMne hS hSne hF hFne hm hs
  simp only [if_true, List.singleton_append] at h
  rw [h]
  norm_num

theorem hmsToSecondsChars_format_pos (H M S F : List Char)
    (hH : ∀ c ∈ H, isDigitA c = true) (hHne : H ≠ [])
    (hM : ∀ c ∈ M, isDigitA c = true) (hMne : M ≠ [])
    (hS : ∀ c ∈ S, isDigitA c = true) (hSne : S ≠ [])
    (hF : ∀ c ∈ F, isDigitA c = true) (hFne : F ≠ [])
    (hm : digitsVal M < 60) (hs : digitsVal S < 60) :
    hmsToSecondsChars (H ++ ':' :: (M ++ ':' :: (S ++ '.' :: F))) true =
      Except.ok ((digitsVal H : ℚ) * 3600 + (digitsVal M : ℚ) * 60 + (digitsVal S : ℚ) +
          (digitsVal F : ℚ) / 10 ^ F.length) := by
  have h := hmsToSecondsChars_format false H M S F hH hHne hM hMne hS hSne hF hFne hm hs
  simp only [Bool.false_eq_true, if_false, List.nil_append] at h
  rw [h]
  norm_num

theorem thousandths_reconstruct (K : ℕ) :
    ((K / 3600000 : ℕ) : ℚ) * 3600 + ((K / 60000 % 60 : ℕ) : ℚ) * 60 +
      ((K / 1000 % 60 : ℕ) : ℚ) + ((K % 1000 : ℕ) : ℚ) / 1000 = (K : ℚ) / 1000 := by
  have h : (K / 3600000) * 3600000 + (K / 60000 % 60) * 60000 + (K / 1000 % 60) * 1000 +
      K % 1000 = K := by omega
  have h2 := congrArg (fun t : ℕ => (t : ℚ)) h
  push_cast at h2
  field_simp
  linarith

/-- C1 amended: for every duration that is an exact multiple of one
millisecond, parsing the string produced with milliseconds enabled returns
exactly the original value (hence within 1e-9, with the sign of every nonzero
input preserved); inputs with sub-millisecond components are only reproduced
to millisecond precision (see the counterexample). -/
theorem hms_roundtrip_millisecond_multiples (k : ℤ) :
    hms_to_seconds (seconds_to_hms ((k : ℚ) / 1000) true) true =
      Except.ok ((k : ℚ) / 1000) := by
  rw [seconds_to_hms_thousandths k true, hms_to_seconds, data_mk]
  have hHd := padZeros_all_digits (natChars_all_digits (k.natAbs / 3600000)) 2
  have hMd := padZeros_all_digits (natChars_all_digits (k.natAbs / 60000 % 60)) 2
  have hSd := padZeros_all_digits (natChars_all_digits (k.natAbs / 1000 % 60)) 2
  have hFd := padZeros_all_digits (natChars_all_digits (k.natAbs % 1000)) 3
  have hHne := padZeros_ne_nil 2 (natChars (k.natAbs / 3600000)) (by omega)
  have hMne := padZeros_ne_nil 2 (natChars (k.natAbs / 60000 % 60)) (by omega)
  have hSne := padZeros_ne_nil 2 (natChars (k.natAbs / 1000 % 60)) (by omega)
  have hFne := padZeros_ne_nil 3 (natChars (k.natAbs % 1000)) (by omega)
  have hmv : digitsVal (padZeros 2 (natChars (k.natAbs / 60000 % 60))) < 60 := by
    rw [digitsVal_padZeros, digitsVal_natChars]
    exact Nat.mod_lt _ (by omega)
  have hsv : digitsVal (padZeros 2 (natChars (k.natAbs / 1000 % 60))) < 60 := by
    rw [digitsVal_padZeros, digitsVal_natChars]
    exact Nat.mod_lt _ (by omega)
  have hFlen : (padZeros 3 (natChars (k.natAbs % 1000))).length = 3 := by
    rw [padZeros_length]
    have h1 : k.natAbs % 1000 < 10 ^ 3 := by
      have := Nat.mod_lt k.natAbs (show 0 < 1000 by norm_num)
      norm_num
      omega
    have := natChars_length_le h1 (by norm_num)
    omega
  have hval : ((digitsVal (padZeros 2 (natChars (k.natAbs / 3600000))) : ℚ) * 3600 +
      (digitsVal (padZeros 2 (natChars (k.natAbs / 60000 % 60))) : ℚ) * 60 +
      (digitsVal (padZeros 2 (natChars (k.natAbs / 1000 % 60))) : ℚ) +
      (digitsVal (padZeros 3 (natChars (k.natAbs % 1000))) : ℚ) /
        10 ^ (padZeros 3 (natChars (k.natAbs % 1000))).length) = (k.natAbs : ℚ) / 1000 := by
    rw [hFlen, digitsVal_padZeros, digitsVal_natChars, digitsVal_padZeros, digitsVal_natChars,
      digitsVal_padZeros, digitsVal_natChars, digitsVal_padZeros, digitsVal_natChars]
    rw [show ((10 : ℚ) ^ 3) = 1000 by norm_num]
    exact thousandths_reconstruct k.natAbs
  by_cases hk : k < 0
  · rw [if_pos hk]
    simp only [if_true, List.append_assoc, List.singleton_append, List.cons_append,
      List.nil_append]
    rw [hmsToSecondsChars_format_neg _ _ _ _ hHd hHne hMd hMne hSd hSne hFd hFne hmv hsv]
    rw [hval]
    congr 1
    rw [Int.cast_natAbs, abs_of_neg hk]
    push_cast
    ring
  · rw [if_neg hk]
    simp only [if_true, List.append_assoc, List.singleton_append, List.cons_append,
      List.nil_append]
    rw [hmsToSecondsChars_format_pos _ _ _ _ hHd hHne hMd hMne hSd hSne hFd hFne hmv hsv]
    rw [hval]
    congr 1
    rw [Int.cast_natAbs, abs_of_nonneg (not_lt.mp hk)]

/-- C1 counterexample: the claim quantifies over every finite float, but a
duration with a sub-millisecond component cannot round-trip through a
millisecond string: for x = 0.0004 the formatted string is `00:00:00.000`,
which parses back to 0, and 0 differs from x by 4e-4, far more than 1e-9 (and
the sign of a nonzero input is not preserved either, since the result is
zero). -/
theorem hms_roundtrip_counterexample :
    seconds_to_hms (1 / 2500 : ℚ) true = "00:00:00.000" ∧
    hms_to_seconds (seconds_to_hms (1 / 2500 : ℚ) true) true = Except.ok 0 ∧
    ¬ (|(0 : ℚ) - 1 / 2500| ≤ 1 / 1000000000) := by
  have ha : |(1 / 2500 : ℚ)| = 1 / 2500 := abs_of_nonneg (by norm_num)
  have h2 : ⌊(1 / 2500 : ℚ)⌋₊ = 0 := Nat.floor_eq_zero.mpr (by norm_num)
  have h3 : ⌊(1 / 2500 : ℚ) * 1000⌋₊ = 0 := Nat.floor_eq_zero.mpr (by norm_num)
  have hneg : ¬ ((1 / 2500 : ℚ) < 0) := by norm_num
  have hfmt : seconds_to_hms (1 / 2500 : ℚ) true = "00:00:00.000" := by
    simp only [seconds_to_hms, ha, h2, h3, if_neg hneg]
    decide
  refine ⟨hfmt, ?_, by rw [zero_sub, abs_neg, ha]; norm_num⟩
  rw [hfmt]
  simp [hms_to_seconds, hmsToSecondsChars, stripNeg, splitOnC, parseSecondsPart,
    parseNatDigits, digitsVal, digitVal, isDigitA]

theorem padZeros_length_eq_of_lt {n w : Nat} (h : n < 10 ^ w) (hw : 1 ≤ w) :
    (padZeros w (natChars n)).length = w := by
  rw [padZeros_length]
  have := natChars_length_le h hw
  omega

/-- C3: for every input, `seconds_to_hms` decomposes the absolute value into
unbounded whole hours (zero-padded to at least 2 digits, never clamped, with
hours at or above 24 allowed), minutes and seconds in 0-59 zero-padded to
exactly 2 digits, an optional exactly-3-digit millisecond field when
requested, and prefixes `-` exactly when the input is negative with nonzero
magnitude, even when the magnitude rounds to zero; in particular
`seconds_to_hms(-0.5, true) = "-00:00:00.500"` and
`seconds_to_hms(90321.789, false) = "25:05:21"`. -/
theorem seconds_to_hms_format :
    (∀ (x : ℚ) (ms : Bool), ∃ h m s q : ℕ,
      m < 60 ∧ s < 60 ∧ q < 1000 ∧
      h = ⌊|x|⌋₊ / 3600 ∧
      3600 * h + 60 * m + s = ⌊|x|⌋₊ ∧
      q = ⌊|x| * 1000⌋₊ % 1000 ∧
      (⌊|x|⌋₊ : ℚ) ≤ |x| ∧ |x| < (⌊|x|⌋₊ : ℚ) + 1 ∧
      2 ≤ (padZeros 2 (natChars h)).length ∧
      (padZeros 2 (natChars m)).length = 2 ∧
      (padZeros 2 (natChars s)).length = 2 ∧
      (padZeros 3 (natChars q)).length = 3 ∧
      seconds_to_hms x ms = String.mk ((if x < 0 then ['-'] else []) ++
        padZeros 2 (natChars h) ++ [':'] ++ padZeros 2 (natChars m) ++ [':'] ++
        padZeros 2 (natChars s) ++ (if ms then ['.'] ++ padZeros 3 (natChars q) else []))) ∧
    seconds_to_hms (-(1 : ℚ) / 2) true = "-00:00:00.500" ∧
    seconds_to_hms ((90321789 : ℚ) / 1000) false = "25:05:21" := by
  refine ⟨fun x ms => ?_, ?_, ?_⟩
  · refine ⟨⌊|x|⌋₊ / 3600, ⌊|x|⌋₊ / 60 % 60, ⌊|x|⌋₊ % 60, ⌊|x| * 1000⌋₊ % 1000,
      Nat.mod_lt _ (by omega), Nat.mod_lt _ (by omega), Nat.mod_lt _ (by omega),
      rfl, by omega, rfl, Nat.floor_le (abs_nonneg x), ?_, ?_, ?_, ?_, ?_, rfl⟩
    · exact_mod_cast Nat.lt_floor_add_one |x|
    · rw [padZeros_length]
      omega
    · refine padZeros_length_eq_of_lt ?_ (by norm_num)
      have h60 := Nat.mod_lt (⌊|x|⌋₊ / 60) (show 0 < 60 by norm_num)
      norm_num
      omega
    · refine padZeros_length_eq_of_lt ?_ (by norm_num)
      have h60 := Nat.mod_lt ⌊|x|⌋₊ (show 0 < 60 by norm_num)
      norm_num
      omega
    · refine padZeros_length_eq_of_lt ?_ (by norm_num)
      have h1000 := Nat.mod_lt ⌊|x| * 1000⌋₊ (show 0 < 1000 by norm_num)
      norm_num
      omega
  · rw [show (-(1 : ℚ) / 2) = (((-500 : ℤ) : ℚ) / 1000) by norm_num,
      seconds_to_hms_thousandths]
    decide
  · rw [show ((90321789 : ℚ) / 1000) = (((90321789 : ℤ) : ℚ) / 1000) by norm_num,
      seconds_to_hms_thousandths]
    decide

theorem parseNatDigits_isSome (cs : List Char) :
    (parseNatDigits cs).isSome = (!cs.isEmpty && cs.all isDigitA) := by
  rw [parseNatDigits]
  cases he : cs.isEmpty <;> cases ha : cs.all isDigitA <;> simp [he, ha]

theorem parseNatDigits_val {cs : List Char} {n : Nat} (h : parseNatDigits cs = some n) :
    n = digitsVal cs := by
  rw [parseNatDigits] at h
  split at h
  · cases h
  · split at h
    · exact (Option.some_inj.mp h).symm
    · cases h

theorem isOkE_ite {c : Prop} [Decidable c] {e : String} {v : ℚ} :
    isOkE (if c then Except.ok v else Except.error e) = decide c := by
  split <;> rename_i h <;> simp [isOkE, h]

theorem parseSecondsPart_isSome (cs : List Char) (ms : Bool) :
    (parseSecondsPart cs ms).isSome = validSecondsField cs ms := by
  rw [parseSecondsPart, validSecondsField]
  cases ms with
  | false =>
    simp only [Bool.false_eq_true, if_false]
    rw [← parseNatDigits_isSome]
    cases h : parseNatDigits cs <;> simp [h]
  | true =>
    simp only [if_true]
    rcases hsp : splitOnC '.' cs with _ | ⟨w, _ | ⟨f, _ | ⟨g, rest⟩⟩⟩ <;> simp only []
    · simp
    · rw [← parseNatDigits_isSome]
      cases h : parseNatDigits w <;> simp [h]
    · rw [← parseNatDigits_isSome, ← parseNatDigits_isSome]
      cases h1 : parseNatDigits w <;> cases h2 : parseNatDigits f <;> simp [h1, h2]
    · simp

theorem parseSecondsPart_val {cs : List Char} {ms : Bool} {n : Nat} {fv : ℚ}
    (h : parseSecondsPart cs ms = some (n, fv)) : n = secondsFieldVal cs ms := by
  rw [parseSecondsPart] at h
  rw [secondsFieldVal]
  cases ms with
  | false =>
    simp only [Bool.false_eq_true, if_false] at h ⊢
    cases hp : parseNatDigits cs with
    | none => rw [hp] at h; cases h
    | some v =>
      rw [hp] at h
      simp only [Option.map_some'] at h
      cases h
      exact parseNatDigits_val hp
  | true =>
    simp only [if_true] at h ⊢
    rcases hsp : splitOnC '.' cs with _ | ⟨w, _ | ⟨f, _ | ⟨g, rest⟩⟩⟩ <;>
      rw [hsp] at h <;> try simp only [] at h
    all_goals try simp only [List.headD_cons]
    · cases h
    · cases hp : parseNatDigits w with
      | none => rw [hp] at h; cases h
      | some v =>
        rw [hp] at h
        simp only [Option.map_some'] at h
        cases h
        exact parseNatDigits_val hp
    · cases hp : parseNatDigits w with
      | none => rw [hp] at h; cases h
      | some v =>
        cases hf : parseNatDigits f with
        | none => rw [hp, hf] at h; cases h
        | some v2 =>
          rw [hp, hf] at h
          simp only [Option.some_inj] at h
          have hn : n = v := congrArg Prod.fst h.symm
          rw [hn]
          exact parseNatDigits_val hp
    · cases h

theorem hmsToSecondsChars_isOk (cs : List Char) (ms : Bool) :
    isOkE (hmsToSecondsChars cs ms) = validHMS cs ms := by
  simp only [hmsToSecondsChars, validHMS]
  rcases hsp : splitOnC ':' (stripNeg cs).2 with _ | ⟨p1, _ | ⟨p2, _ | ⟨p3, _ | ⟨p4, rest⟩⟩⟩⟩ <;>
    simp only []
  · rfl
  · cases hps : parseSecondsPart p1 ms with
    | none => rw [← parseSecondsPart_isSome, hps]; rfl
    | some v =>
      rcases v with ⟨s, fv⟩
      rw [← parseSecondsPart_isSome, hps]
      rfl
  · cases hp1 : parseNatDigits p1 with
    | none =>
      have h1 : (!p1.isEmpty && p1.all isDigitA) = false := by
        rw [← parseNatDigits_isSome, hp1]; rfl
      cases hps : parseSecondsPart p2 ms <;> simp [h1, isOkE]
    | some m =>
      have h1 : (!p1.isEmpty && p1.all isDigitA) = true := by
        rw [← parseNatDigits_isSome, hp1]; rfl
      cases hps : parseSecondsPart p2 ms with
      | none =>
        have h2 : validSecondsField p2 ms = false := by
          rw [← parseSecondsPart_isSome, hps]; rfl
        simp [h1, h2, isOkE]
      | some v =>
        rcases v with ⟨s, fv⟩
        have h2 : validSecondsField p2 ms = true := by
          rw [← parseSecondsPart_isSome, hps]; rfl
        have hm := parseNatDigits_val hp1
        have hsv := parseSecondsPart_val hps
        rw [isOkE_ite, h1, h2, ← hm, ← hsv]
        simp
  · cases hp1 : parseNatDigits p1 with
    | none =>
      have h1 : (!p1.isEmpty && p1.all isDigitA) = false := by
        rw [← parseNatDigits_isSome, hp1]; rfl
      cases hp2 : parseNatDigits p2 <;> cases hps : parseSecondsPart p3 ms <;>
        simp [h1, isOkE]
    | some h =>
      have h1 : (!p1.isEmpty && p1.all isDigitA) = true := by
        rw [← parseNatDigits_isSome, hp1]; rfl
      cases hp2 : parseNatDigits p2 with
      | none =>
        have h2 : (!p2.isEmpty && p2.all isDigitA) = false := by
          rw [← parseNatDigits_isSome, hp2]; rfl
        cases hps : parseSecondsPart p3 ms <;> simp [h1, h2, isOkE]
      | some m =>
        have h2 : (!p2.isEmpty && p2.all isDigitA) = true := by
          rw [← parseNatDigits_isSome, hp2]; rfl
        cases hps : parseSecondsPart p3 ms with
        | none =>
          have h3 : validSecondsField p3 ms = false := by
            rw [← parseSecondsPart_isSome, hps]; rfl
          simp [h1, h2, h3, isOkE]
        | some v =>
          rcases v with ⟨s, fv⟩
          have h3 : validSecondsField p3 ms = true := by
            rw [← parseSecondsPart_isSome, hps]; rfl
          have hm := parseNatDigits_val hp2
          have hsv := parseSecondsPart_val hps
          rw [isOkE_ite, h1, h2, h3, ← hm, ← hsv]
          simp
  · rfl

/-- C4: `hms_to_seconds` raises `InvalidFormat`, never silently returning a
default, exactly when the input fails the grammar `validHMS` (more than 3
colon-separated parts, a non-digit or empty numeric field, a non-digit
fractional part, or a minute/second field of a multi-part time at or above
60); every grammar-matching string instead parses to its computed second
count, as on the test vectors. -/
theorem hms_to_seconds_error_iff :
    (∀ (t : String) (ms : Bool),
      (∃ e, hms_to_seconds t ms = Except.error e) ↔ validHMS t.data ms = false) ∧
    hms_to_seconds "1:2:3:4" false = Except.error "InvalidFormat" ∧
    hms_to_seconds "1:60" false = Except.error "InvalidFormat" ∧
    hms_to_seconds "1:02:60" false = Except.error "InvalidFormat" ∧
    hms_to_seconds "invalid_time" false = Except.error "InvalidFormat" ∧
    hms_to_seconds "12:34:56.789x" true = Except.error "InvalidFormat" ∧
    hms_to_seconds "2:3" false = Except.ok 123 ∧
    hms_to_seconds "-1:02:03" false = Except.ok (-3723) ∧
    hms_to_seconds "00:02:03.456" true = Except.ok (123456 / 1000) ∧
    hms_to_seconds "00:00:00.1" true = Except.ok (1 / 10) := by
  refine ⟨?_, ?_, ?_, ?_, ?_, ?_, ?_, ?_, ?_, ?_⟩
  · intro t ms
    have h := hmsToSecondsChars_isOk t.data ms
    constructor
    · rintro ⟨e, he⟩
      rw [hms_to_seconds] at he
      rw [← h, he]
      rfl
    · intro hv
      cases hx : hmsToSecondsChars t.data ms with
      | error e => exact ⟨e, hx⟩
      | ok v =>
        rw [hx, hv] at h
        simp [isOkE] at h
  all_goals
    simp [hms_to_seconds, hmsToSecondsChars, stripNeg, splitOnC, parseSecondsPart,
      parseNatDigits, digitsVal, digitVal, isDigitA]
  all_goals norm_num
